import Mathlib

/-!
Verification of the sampling algorithms of the Computational-Statistical-Mechanics
repository: the Metropolis pebble-game walkers (lattice and generic variants), the
rejection sampler, the tower sampler and its continuum limit, the grid builder and
the neighborhood table.

Python dictionaries are embedded as total functions built by successive updates
(later assignments overwrite earlier ones, as in Python); the pseudo-random stream
is an explicit list of draws (the values `random.randint` / `random.uniform` would
have produced), so every sampler is a pure function of its random stream.
Probabilities and uniform variates are rationals.
-/

/-- Pointwise update of a dictionary-as-function, as a Python `d[k] = v` assignment. -/
def updD (t : String → α) (k : String) (v : α) : String → α :=
  fun s => if s = k then v else t s

/-- Build a dictionary from a list of key/value assignments executed in order
(later assignments overwrite earlier ones, matching Python dict construction). -/
def dictOf (l : List (String × α)) (d : α) : String → α :=
  l.foldl (fun t kv => updD t kv.1 kv.2) (fun _ => d)

/-- `scores[k] += 1` on a dictionary-as-function. -/
def bump (t : String → ℕ) (k : String) : String → ℕ :=
  updD t k (t k + 1)

/-- State of a Metropolis walker: current position, its cached stationary
probability, and the per-position hit counts. -/
structure MetState where
  currentPos : String
  currentProb : ℚ
  scores : String → ℕ

/-- One loop iteration of the generic `metropolis_pebble` of `basic_sampling.ipynb`:
`r.1` is the value drawn by `random.randint(0, len(activities)-1)` and `r.2` the
variate drawn by `random.uniform(0, 1)`. -/
def met_step (activities : List String) (probabilities : List ℚ)
    (s : MetState) (r : ℕ × ℚ) : MetState :=
  let new_pos := activities.getD r.1 ""
  let new_pos_prob := probabilities.getD r.1 0
  let gamma := min 1 (new_pos_prob / s.currentProb)
  if r.2 ≤ gamma then
    ⟨new_pos, new_pos_prob, bump s.scores new_pos⟩
  else
    ⟨s.currentPos, s.currentProb, bump s.scores s.currentPos⟩

/-- The generic `metropolis_pebble(num_iter, activities, probabilities)` of
`basic_sampling.ipynb`, with the random stream passed explicitly
(`num_iter = rands.length`). Scores start at zero and the walk starts at
`activities[0]` with its probability cached. -/
def metropolis_pebble (rands : List (ℕ × ℚ))
    (activities : List String) (probabilities : List ℚ) : MetState :=
  rands.foldl (met_step activities probabilities)
    ⟨activities.getD 0 "", probabilities.getD 0 0, fun _ => 0⟩

/-- One loop iteration of the lattice `metropolis_pebble` of the pebble-game
notebook: `r.1` is the direction drawn by `random.randint(0, 3)` and `r.2` the
variate drawn by `random.uniform(0, 1)`. -/
def lattice_step (neighborhood_table : String → List String) (sta_prob : String → ℚ)
    (s : MetState) (r : ℕ × ℚ) : MetState :=
  let new_pos := (neighborhood_table s.currentPos).getD r.1 ""
  let new_pos_prob := sta_prob new_pos
  let gamma := min 1 (new_pos_prob / s.currentProb)
  if r.2 ≤ gamma then
    ⟨new_pos, new_pos_prob, bump s.scores new_pos⟩
  else
    ⟨s.currentPos, s.currentProb, bump s.scores s.currentPos⟩

/-- The sixteen keys at which the lattice walker initializes its score dictionary. -/
def lattice_keys : List String :=
  ["A", "B", "C", "D", "E", "F", "G", "H", "I", "J", "K", "L", "M", "N", "O", "P"]

/-- The lattice `metropolis_pebble(num_iter, neighborhood_table, sta_prob)` of the
inhomogeneous pebble-game notebook, with the random stream passed explicitly
(`num_iter = rands.length`). The initial position is the hardcoded label `'A'`
with its stationary probability cached; scores start at zero. -/
def metropolis_pebble_lattice (rands : List (ℕ × ℚ))
    (neighborhood_table : String → List String) (sta_prob : String → ℚ) : MetState :=
  rands.foldl (lattice_step neighborhood_table sta_prob)
    ⟨"A", sta_prob "A", fun _ => 0⟩

/-- Sum of the score dictionary over a list of keys. -/
def sumScores (keys : List String) (scores : String → ℕ) : ℕ :=
  (keys.map scores).sum

/-- `max(probabilities)` of Python: the maximum of a nonempty list (0 on the empty
list, where Python would raise). -/
def max_prob (l : List ℚ) : ℚ :=
  match l with
  | [] => 0
  | x :: xs => xs.foldl max x

/-- State of the rejection sampler: per-activity scores and the accept counter. -/
structure RejState where
  scores : String → ℕ
  accept_count : ℕ

/-- One loop iteration of `reject_finite` of `basic_sampling.ipynb`: `r.1` is the
index drawn by `random.randint(0, len(activities)-1)` and `r.2` the threshold
drawn by `random.uniform(0, max_prob)`. The draw is accepted iff the threshold is
at most the chosen activity's probability, incrementing that activity's score and
the accept counter. -/
def reject_step (activities : List String) (probabilities : List ℚ)
    (s : RejState) (r : ℕ × ℚ) : RejState :=
  if r.2 ≤ probabilities.getD r.1 0 then
    ⟨bump s.scores (activities.getD r.1 ""), s.accept_count + 1⟩
  else
    s

/-- `reject_finite(num_iter, activities, probabilities)` of `basic_sampling.ipynb`,
with the random stream passed explicitly (`num_iter = draws.length`). -/
def reject_finite (draws : List (ℕ × ℚ))
    (activities : List String) (probabilities : List ℚ) : RejState :=
  draws.foldl (reject_step activities probabilities) ⟨fun _ => 0, 0⟩

/-- The loop of `tower_sample` that appends partial sums: `cumFrom a ps` is the
list of running totals of `ps` starting from accumulator `a`. -/
def cumFrom (a : ℚ) : List ℚ → List ℚ
  | [] => []
  | p :: ps => (a + p) :: cumFrom (a + p) ps

/-- The cumulative list `cum_prob` built by `tower_sample`: it starts at `[0]` and
appends `cum_prob[i] + probabilities[i]` for each `i`. -/
def cum_prob (probabilities : List ℚ) : List ℚ :=
  0 :: cumFrom 0 probabilities

/-- The inner scan of `tower_sample` over a list of cumulative values: position of
the first element that is `≥ gamma` (`none` when no element qualifies). -/
def tower_scan (gamma : ℚ) : List ℚ → Option ℕ
  | [] => none
  | c :: cs => if gamma ≤ c then some 0 else (tower_scan gamma cs).map (· + 1)

/-- The bucket hit by one draw of `tower_sample`: the scan runs over
`cum_prob[1], cum_prob[2], ...` and a hit at `cum_prob[i]` is attributed to
activity `i-1`. -/
def tower_pick (gamma : ℚ) (cums : List ℚ) : Option ℕ :=
  tower_scan gamma cums.tail

/-- One loop iteration of `tower_sample`: bump the score of the hit activity. -/
def tower_step (activities : List String) (cums : List ℚ)
    (scores : String → ℕ) (gamma : ℚ) : String → ℕ :=
  match tower_pick gamma cums with
  | some idx => bump scores (activities.getD idx "")
  | none => scores

/-- `tower_sample(num_iter, activities, probabilities)` of `basic_sampling.ipynb`,
with the draws of `random.uniform(0, cum_prob[-1])` passed explicitly
(`num_iter = draws.length`). -/
def tower_sample (draws : List ℚ)
    (activities : List String) (probabilities : List ℚ) : String → ℕ :=
  draws.foldl (tower_step activities (cum_prob probabilities)) (fun _ => 0)

/-- `cont_tower_sample(num_iter)` of `basic_sampling.ipynb`, with the draws of
`random.uniform(0, 1)` passed explicitly: each sample is `arccos(1 - 2*upsilon)`. -/
noncomputable def cont_tower_sample (upsilons : List ℝ) : List ℝ :=
  upsilons.map (fun upsilon => Real.arccos (1 - 2 * upsilon))

/-- `string.ascii_uppercase` as a list of one-character labels. -/
def ascii_uppercase : List String :=
  ["A", "B", "C", "D", "E", "F", "G", "H", "I", "J", "K", "L", "M",
   "N", "O", "P", "Q", "R", "S", "T", "U", "V", "W", "X", "Y", "Z"]

/-- `reshape(n, n)` on a flat list: `rows` successive rows of `rowLen` elements. -/
def reshape (rowLen : ℕ) : ℕ → List String → List (List String)
  | 0, _ => []
  | rows + 1, l => l.take rowLen :: reshape rowLen rows (l.drop rowLen)

/-- `create_system(n)` of the pebble-game notebook:
`letters[:n*n].reshape(n, n)` over the 26 uppercase letters. numpy's `reshape`
raises `ValueError` when the slice holds fewer than `n*n` elements, which happens
exactly when `n*n > 26`; this is modelled by `none`. -/
def create_system (n : ℕ) : Option (List (List String)) :=
  let sliced := ascii_uppercase.take (n * n)
  if sliced.length = n * n then some (reshape n n sliced) else none

/-- `system[i, j]` on the list-of-rows grid (out-of-range reads default to `""`;
the notebook never performs one). -/
def grid_get (system : List (List String)) (i j : ℕ) : String :=
  (system.getD i []).getD j ""

/-- The four neighbor labels collected by one body of the nested loops of
`get_neighborhood_table`, in the fixed order up, right, down, left, with the
out-of-bounds direction replaced by the cell's own label. -/
def neighbors_of (system : List (List String)) (i j : ℕ) : List String :=
  [if 0 < i then grid_get system (i - 1) j else grid_get system i j,
   if j < system.length - 1 then grid_get system i (j + 1) else grid_get system i j,
   if i < system.length - 1 then grid_get system (i + 1) j else grid_get system i j,
   if 0 < j then grid_get system i (j - 1) else grid_get system i j]

/-- The dictionary assignments of `get_neighborhood_table` in loop order
(`i` outer, `j` inner, both over `range(n)` with `n = system.shape[0]`). -/
def table_entries (system : List (List String)) : List (String × List String) :=
  (List.range system.length).flatMap (fun i =>
    (List.range system.length).map (fun j =>
      (grid_get system i j, neighbors_of system i j)))

/-- `get_neighborhood_table(system)` of the pebble-game notebook, as the
dictionary built by its nested loops. -/
def get_neighborhood_table (system : List (List String)) : String → List String :=
  dictOf (table_entries system) []

theorem updD_apply (t : String → α) (k : String) (v : α) (s : String) :
    updD t k v s = if s = k then v else t s := rfl

theorem bump_sum (keys : List String) (t : String → ℕ) (k : String)
    (hnd : keys.Nodup) (hk : k ∈ keys) :
    sumScores keys (bump t k) = sumScores keys t + 1 := by
  induction keys with
  | nil => cases hk
  | cons a l ih =>
    rcases List.mem_cons.mp hk with h | h
    · subst h
      have hnot : k ∉ l := (List.nodup_cons.mp hnd).1
      have hmap : l.map (bump t k) = l.map t := by
        apply List.map_congr_left
        intro x hx
        have hxk : x ≠ k := fun he => hnot (he ▸ hx)
        simp [bump, updD, hxk]
      have hself : bump t k k = t k + 1 := by simp [bump, updD]
      simp only [sumScores, List.map_cons, List.sum_cons, hmap, hself]
      omega
    · have hnd' : l.Nodup := (List.nodup_cons.mp hnd).2
      have hak : a ≠ k := fun he => ((List.nodup_cons.mp hnd).1 (he ▸ h))
      have hih := ih hnd' h
      have ha : bump t k a = t a := by simp [bump, updD, hak]
      simp only [sumScores, List.map_cons, List.sum_cons, ha] at hih ⊢
      omega


theorem met_step_eq (activities : List String) (probabilities : List ℚ)
    (s : MetState) (r : ℕ × ℚ) :
    met_step activities probabilities s r =
      if r.2 ≤ min 1 (probabilities.getD r.1 0 / s.currentProb) then
        ⟨activities.getD r.1 "", probabilities.getD r.1 0,
         bump s.scores (activities.getD r.1 "")⟩
      else
        ⟨s.currentPos, s.currentProb, bump s.scores s.currentPos⟩ := rfl

theorem lattice_step_eq (neighborhood_table : String → List String)
    (sta_prob : String → ℚ) (s : MetState) (r : ℕ × ℚ) :
    lattice_step neighborhood_table sta_prob s r =
      if r.2 ≤ min 1 (sta_prob ((neighborhood_table s.currentPos).getD r.1 "") / s.currentProb) then
        ⟨(neighborhood_table s.currentPos).getD r.1 "",
         sta_prob ((neighborhood_table s.currentPos).getD r.1 ""),
         bump s.scores ((neighborhood_table s.currentPos).getD r.1 "")⟩
      else
        ⟨s.currentPos, s.currentProb, bump s.scores s.currentPos⟩ := rfl

theorem sumScores_zero (keys : List String) : sumScores keys (fun _ => 0) = 0 := by
  induction keys with
  | nil => rfl
  | cons a l _ih => simp [sumScores]

theorem getD_mem_self (l : List String) (i : ℕ) (h : i < l.length) :
    l.getD i "" ∈ l := by
  rw [List.getD_eq_getElem _ _ h]
  exact List.getElem_mem h

theorem met_fold_sum (activities : List String) (probabilities : List ℚ)
    (rands : List (ℕ × ℚ)) :
    ∀ s : MetState, (∀ r ∈ rands, r.1 < activities.length) → s.currentPos ∈ activities →
      (rands.foldl (met_step activities probabilities) s).currentPos ∈ activities ∧
      sumScores activities.dedup (rands.foldl (met_step activities probabilities) s).scores
        = sumScores activities.dedup s.scores + rands.length := by
  induction rands with
  | nil => intro s _ hs; exact ⟨hs, by simp⟩
  | cons r rs ih =>
    intro s hr hs
    have hr1 : r.1 < activities.length := hr r (List.mem_cons_self r rs)
    have hmem : activities.getD r.1 "" ∈ activities := getD_mem_self _ _ hr1
    have hstep_pos : (met_step activities probabilities s r).currentPos ∈ activities := by
      rw [met_step_eq]
      by_cases hc : r.2 ≤ min 1 (probabilities.getD r.1 0 / s.currentProb)
      · rw [if_pos hc]; exact hmem
      · rw [if_neg hc]; exact hs
    have hstep_sum : sumScores activities.dedup (met_step activities probabilities s r).scores
        = sumScores activities.dedup s.scores + 1 := by
      rw [met_step_eq]
      by_cases hc : r.2 ≤ min 1 (probabilities.getD r.1 0 / s.currentProb)
      · rw [if_pos hc]
        exact bump_sum _ _ _ (List.nodup_dedup _) (List.mem_dedup.mpr hmem)
      · rw [if_neg hc]
        exact bump_sum _ _ _ (List.nodup_dedup _) (List.mem_dedup.mpr hs)
    have hrs : ∀ x ∈ rs, x.1 < activities.length := fun x hx => hr x (List.mem_cons_of_mem _ hx)
    have hmain := ih (met_step activities probabilities s r) hrs hstep_pos
    refine ⟨hmain.1, ?_⟩
    simp only [List.foldl_cons, List.length_cons]
    rw [hmain.2, hstep_sum]
    omega

theorem lattice_fold_sum (neighborhood_table : String → List String)
    (sta_prob : String → ℚ) (keys : List String) (hnd : keys.Nodup)
    (hcl : ∀ s ∈ keys, ∀ j, j < 4 → (neighborhood_table s).getD j "" ∈ keys)
    (rands : List (ℕ × ℚ)) :
    ∀ s : MetState, (∀ r ∈ rands, r.1 < 4) → s.currentPos ∈ keys →
      (rands.foldl (lattice_step neighborhood_table sta_prob) s).currentPos ∈ keys ∧
      sumScores keys (rands.foldl (lattice_step neighborhood_table sta_prob) s).scores
        = sumScores keys s.scores + rands.length := by
  induction rands with
  | nil => intro s _ hs; exact ⟨hs, by simp⟩
  | cons r rs ih =>
    intro s hr hs
    have hr1 : r.1 < 4 := hr r (List.mem_cons_self r rs)
    have hmem : (neighborhood_table s.currentPos).getD r.1 "" ∈ keys :=
      hcl s.currentPos hs r.1 hr1
    have hstep_pos : (lattice_step neighborhood_table sta_prob s r).currentPos ∈ keys := by
      rw [lattice_step_eq]
      by_cases hc : r.2 ≤ min 1
          (sta_prob ((neighborhood_table s.currentPos).getD r.1 "") / s.currentProb)
      · rw [if_pos hc]; exact hmem
      · rw [if_neg hc]; exact hs
    have hstep_sum : sumScores keys (lattice_step neighborhood_table sta_prob s r).scores
        = sumScores keys s.scores + 1 := by
      rw [lattice_step_eq]
      by_cases hc : r.2 ≤ min 1
          (sta_prob ((neighborhood_table s.currentPos).getD r.1 "") / s.currentProb)
      · rw [if_pos hc]; exact bump_sum _ _ _ hnd hmem
      · rw [if_neg hc]; exact bump_sum _ _ _ hnd hs
    have hrs : ∀ x ∈ rs, x.1 < 4 := fun x hx => hr x (List.mem_cons_of_mem _ hx)
    have hmain := ih (lattice_step neighborhood_table sta_prob s r) hrs hstep_pos
    refine ⟨hmain.1, ?_⟩
    simp only [List.foldl_cons, List.length_cons]
    rw [hmain.2, hstep_sum]
    omega

theorem reject_fold_inv (activities : List String) (probabilities : List ℚ)
    (draws : List (ℕ × ℚ)) :
    ∀ s : RejState, (∀ r ∈ draws, r.1 < activities.length) →
      sumScores activities.dedup (draws.foldl (reject_step activities probabilities) s).scores
          + s.accept_count
        = sumScores activities.dedup s.scores
          + (draws.foldl (reject_step activities probabilities) s).accept_count := by
  induction draws with
  | nil => intro s _; rfl
  | cons r rs ih =>
    intro s hr
    have hr1 : r.1 < activities.length := hr r (List.mem_cons_self r rs)
    have hmem : activities.getD r.1 "" ∈ activities := getD_mem_self _ _ hr1
    have hrs : ∀ x ∈ rs, x.1 < activities.length := fun x hx => hr x (List.mem_cons_of_mem _ hx)
    have hmain := ih (reject_step activities probabilities s r) hrs
    simp only [List.foldl_cons]
    by_cases hc : r.2 ≤ probabilities.getD r.1 0
    · have hstep : reject_step activities probabilities s r =
          ⟨bump s.scores (activities.getD r.1 ""), s.accept_count + 1⟩ := by
        simp only [reject_step, if_pos hc]
      rw [hstep] at hmain ⊢
      have hb := bump_sum activities.dedup s.scores (activities.getD r.1 "")
        (List.nodup_dedup _) (List.mem_dedup.mpr hmem)
      simp only [hb] at hmain
      omega
    · have hstep : reject_step activities probabilities s r = s := by
        simp only [reject_step, if_neg hc]
      rw [hstep] at hmain ⊢
      omega

theorem reject_fold_count_le (activities : List String) (probabilities : List ℚ)
    (draws : List (ℕ × ℚ)) :
    ∀ s : RejState, (draws.foldl (reject_step activities probabilities) s).accept_count
      ≤ s.accept_count + draws.length := by
  induction draws with
  | nil => intro s; simp
  | cons r rs ih =>
    intro s
    simp only [List.foldl_cons, List.length_cons]
    have hmain := ih (reject_step activities probabilities s r)
    have hstep : (reject_step activities probabilities s r).accept_count ≤ s.accept_count + 1 := by
      by_cases hc : r.2 ≤ probabilities.getD r.1 0
      · simp only [reject_step, if_pos hc]; omega
      · simp only [reject_step, if_neg hc]; omega
    omega

/-- C1: In every iteration of either Metropolis walker (lattice and generic
variants), given strictly positive weights, the acceptance probability is
`gamma = min(1, w_new / w_current)` with `w_current` the cached weight of the
current position, and the move is accepted if and only if the uniform variate is
`≤ gamma` — in particular the boundary variate `= gamma` is accepted. -/
theorem metropolis_acceptance_rule
    (activities : List String) (probabilities : List ℚ)
    (neighborhood_table : String → List String) (sta_prob : String → ℚ)
    (s : MetState) (r : ℕ × ℚ)
    (hcur : 0 < s.currentProb)
    (hnew : 0 < probabilities.getD r.1 0)
    (hnewlat : 0 < sta_prob ((neighborhood_table s.currentPos).getD r.1 "")) :
    (r.2 ≤ min 1 (probabilities.getD r.1 0 / s.currentProb) →
      met_step activities probabilities s r =
        ⟨activities.getD r.1 "", probabilities.getD r.1 0,
         bump s.scores (activities.getD r.1 "")⟩) ∧
    (min 1 (probabilities.getD r.1 0 / s.currentProb) < r.2 →
      met_step activities probabilities s r =
        ⟨s.currentPos, s.currentProb, bump s.scores s.currentPos⟩) ∧
    (r.2 = min 1 (probabilities.getD r.1 0 / s.currentProb) →
      (met_step activities probabilities s r).currentPos = activities.getD r.1 "") ∧
    (r.2 ≤ min 1 (sta_prob ((neighborhood_table s.currentPos).getD r.1 "") / s.currentProb) →
      lattice_step neighborhood_table sta_prob s r =
        ⟨(neighborhood_table s.currentPos).getD r.1 "",
         sta_prob ((neighborhood_table s.currentPos).getD r.1 ""),
         bump s.scores ((neighborhood_table s.currentPos).getD r.1 "")⟩) ∧
    (min 1 (sta_prob ((neighborhood_table s.currentPos).getD r.1 "") / s.currentProb) < r.2 →
      lattice_step neighborhood_table sta_prob s r =
        ⟨s.currentPos, s.currentProb, bump s.scores s.currentPos⟩) ∧
    (r.2 = min 1 (sta_prob ((neighborhood_table s.currentPos).getD r.1 "") / s.currentProb) →
      (lattice_step neighborhood_table sta_prob s r).currentPos
        = (neighborhood_table s.currentPos).getD r.1 "") := by
  refine ⟨?_, ?_, ?_, ?_, ?_, ?_⟩
  · intro hc; rw [met_step_eq, if_pos hc]
  · intro hc; rw [met_step_eq, if_neg (not_le.mpr hc)]
  · intro hc; rw [met_step_eq, if_pos (le_of_eq hc)]
  · intro hc; rw [lattice_step_eq, if_pos hc]
  · intro hc; rw [lattice_step_eq, if_neg (not_le.mpr hc)]
  · intro hc; rw [lattice_step_eq, if_pos (le_of_eq hc)]

theorem metropolis_acceptance_rule_witness :
    (0 : ℚ) < (⟨"a", 1, fun _ => 0⟩ : MetState).currentProb ∧
    (met_step ["a", "b"] [1, 1] ⟨"a", 1, fun _ => 0⟩ (1, 0)).currentPos = "b" := by
  constructor
  · norm_num
  · have h := (metropolis_acceptance_rule ["a", "b"] [1, 1]
      (fun _ => ["a", "a", "a", "a"]) (fun _ => 1)
      ⟨"a", 1, fun _ => 0⟩ (1, 0)
      (by norm_num) (by norm_num [List.getD]) (by norm_num)).1
    rw [h (by norm_num [List.getD])]
    simp [List.getD]

/-- C7: In every iteration of either Metropolis walker, accepted or rejected,
exactly one score is incremented — that of the (possibly unchanged) current
position — and the walk runs for exactly the length of the random stream, so the
returned score values sum to `num_iter`. -/
theorem metropolis_scores_sum_iterations
    (rands rands2 : List (ℕ × ℚ)) (activities : List String) (probabilities : List ℚ)
    (neighborhood_table : String → List String) (sta_prob : String → ℚ) (keys : List String)
    (hne : activities ≠ []) (hr : ∀ r ∈ rands, r.1 < activities.length)
    (hnd : keys.Nodup) (hA : "A" ∈ keys)
    (hcl : ∀ s ∈ keys, ∀ j, j < 4 → (neighborhood_table s).getD j "" ∈ keys)
    (hr2 : ∀ r ∈ rands2, r.1 < 4) :
    sumScores activities.dedup (metropolis_pebble rands activities probabilities).scores
      = rands.length ∧
    sumScores keys (metropolis_pebble_lattice rands2 neighborhood_table sta_prob).scores
      = rands2.length := by
  constructor
  · have hs : (⟨activities.getD 0 "", probabilities.getD 0 0, fun _ => 0⟩ :
        MetState).currentPos ∈ activities := by
      cases activities with
      | nil => exact absurd rfl hne
      | cons a l => simp
    have h := met_fold_sum activities probabilities rands
      ⟨activities.getD 0 "", probabilities.getD 0 0, fun _ => 0⟩ hr hs
    unfold metropolis_pebble
    rw [h.2]
    simp [sumScores_zero]
  · have hs : (⟨"A", sta_prob "A", fun _ => 0⟩ : MetState).currentPos ∈ keys := hA
    have h := lattice_fold_sum neighborhood_table sta_prob keys hnd hcl rands2
      ⟨"A", sta_prob "A", fun _ => 0⟩ hr2 hs
    unfold metropolis_pebble_lattice
    rw [h.2]
    simp [sumScores_zero]

theorem metropolis_scores_sum_iterations_witness :
    (["x", "y"] : List String) ≠ [] ∧
    sumScores (["x", "y"] : List String).dedup
        (metropolis_pebble [(1, 0)] ["x", "y"] [1, 1]).scores = 1 ∧
    sumScores ["A", "B"]
        (metropolis_pebble_lattice [(0, 0)]
          (fun _ => ["A", "A", "A", "A"]) (fun _ => 1)).scores = 1 := by
  have h := metropolis_scores_sum_iterations [(1, 0)] [(0, 0)] ["x", "y"] [1, 1]
    (fun _ => ["A", "A", "A", "A"]) (fun _ => 1) ["A", "B"]
    (by simp) (by simp) (by simp) (by simp)
    (by intro s _ j hj; interval_cases j <;> simp) (by simp)
  exact ⟨by simp, h.1, h.2⟩

/-- C9: For every run of the rejection sampler, the returned accept count equals
the sum of the returned per-activity scores: each accepted draw increments exactly
one activity's score and the accept counter together, and nothing else touches
either. -/
theorem reject_accept_count_eq_scores_sum (draws : List (ℕ × ℚ))
    (activities : List String) (probabilities : List ℚ)
    (hidx : ∀ r ∈ draws, r.1 < activities.length) :
    (reject_finite draws activities probabilities).accept_count
      = sumScores activities.dedup (reject_finite draws activities probabilities).scores := by
  have h := reject_fold_inv activities probabilities draws ⟨fun _ => 0, 0⟩ hidx
  have h0 : sumScores activities.dedup (RejState.mk (fun _ => 0) 0).scores = 0 :=
    sumScores_zero _
  have h1 : (RejState.mk (fun _ => 0) 0).accept_count = 0 := rfl
  rw [h0, h1] at h
  unfold reject_finite
  omega

theorem reject_accept_count_eq_scores_sum_witness :
    (∀ r ∈ [((0 : ℕ), (0 : ℚ))], r.1 < (["a"] : List String).length) ∧
    (reject_finite [((0 : ℕ), (0 : ℚ))] ["a"] [1]).accept_count
      = sumScores (["a"] : List String).dedup
          (reject_finite [((0 : ℕ), (0 : ℚ))] ["a"] [1]).scores := by
  refine ⟨by simp, reject_accept_count_eq_scores_sum [((0 : ℕ), (0 : ℚ))] ["a"] [1] (by simp)⟩

/-- C5: Each iteration of the rejection sampler accepts the draw if and only if
the threshold is at most the chosen activity's weight (ties accepted), and the
returned accept count is at most the iteration count. -/
theorem reject_acceptance_rule (draws : List (ℕ × ℚ))
    (activities : List String) (probabilities : List ℚ)
    (hpos : ∀ p ∈ probabilities, 0 < p)
    (hdr : ∀ r ∈ draws, r.1 < activities.length ∧ 0 ≤ r.2 ∧ r.2 ≤ max_prob probabilities) :
    (∀ (s : RejState) (r : ℕ × ℚ),
      (r.2 ≤ probabilities.getD r.1 0 →
        reject_step activities probabilities s r
          = ⟨bump s.scores (activities.getD r.1 ""), s.accept_count + 1⟩) ∧
      (probabilities.getD r.1 0 < r.2 →
        reject_step activities probabilities s r = s)) ∧
    (reject_finite draws activities probabilities).accept_count ≤ draws.length := by
  refine ⟨?_, ?_⟩
  · intro s r
    constructor
    · intro hc; simp only [reject_step, if_pos hc]
    · intro hc; simp only [reject_step, if_neg (not_le.mpr hc)]
  · have h := reject_fold_count_le activities probabilities draws ⟨fun _ => 0, 0⟩
    unfold reject_finite
    simpa using h

theorem reject_acceptance_rule_witness :
    (∀ p ∈ [(1 : ℚ)], 0 < p) ∧
    (reject_finite [((0 : ℕ), (0 : ℚ))] ["a"] [1]).accept_count ≤ 1 := by
  refine ⟨by norm_num, (reject_acceptance_rule [((0 : ℕ), (0 : ℚ))] ["a"] [1]
    (by norm_num) ?_).2⟩
  intro r hr
  simp at hr
  subst hr
  refine ⟨by simp, by norm_num, by norm_num [max_prob]⟩

/-- C4 counterexample: a caller system of two isolated self-loop nodes `"A"` and
`"B"` with equal weights. Even on this input the lattice walker's run is at `"A"`:
its start is the hardcoded label `'A'`, so the caller cannot choose the label the
walk starts from (there is no seed argument), and the tally at `"B"` stays 0. -/
theorem lattice_seed_counterexample :
    (metropolis_pebble_lattice [(0, 0)]
        (dictOf [("A", ["A", "A", "A", "A"]), ("B", ["B", "B", "B", "B"])] [])
        (dictOf [("A", (1 : ℚ)), ("B", 1)] 0)).currentPos = "A" ∧
    (metropolis_pebble_lattice [(0, 0)]
        (dictOf [("A", ["A", "A", "A", "A"]), ("B", ["B", "B", "B", "B"])] [])
        (dictOf [("A", (1 : ℚ)), ("B", 1)] 0)).scores "A" = 1 ∧
    (metropolis_pebble_lattice [(0, 0)]
        (dictOf [("A", ["A", "A", "A", "A"]), ("B", ["B", "B", "B", "B"])] [])
        (dictOf [("A", (1 : ℚ)), ("B", 1)] 0)).scores "B" = 0 := by
  simp [metropolis_pebble_lattice, lattice_step, dictOf, updD, bump, List.getD]

/-- C4 (amended): neither walker subjects the initial state to rejection — before
any iteration the scores are all zero and the position is the seed. The generic
walker's seed is `activities[0]`, which the caller supplies; the lattice walker's
seed is the hardcoded label `'A'`, which the caller cannot choose. -/
theorem metropolis_initial_seed (activities : List String) (probabilities : List ℚ)
    (neighborhood_table : String → List String) (sta_prob : String → ℚ)
    (a : String) (ha : activities.headD "" = a) :
    (metropolis_pebble [] activities probabilities).currentPos = a ∧
    (∀ l, (metropolis_pebble [] activities probabilities).scores l = 0) ∧
    (metropolis_pebble_lattice [] neighborhood_table sta_prob).currentPos = "A" ∧
    (∀ l, (metropolis_pebble_lattice [] neighborhood_table sta_prob).scores l = 0) := by
  refine ⟨?_, fun l => rfl, rfl, fun l => rfl⟩
  show activities.getD 0 "" = a
  cases activities with
  | nil => exact ha
  | cons x xs => exact ha

theorem metropolis_initial_seed_witness :
    (["s"] : List String).headD "" = "s" ∧
    (metropolis_pebble [] ["s"] [1]).currentPos = "s" := by
  exact ⟨rfl, (metropolis_initial_seed ["s"] [1] (fun _ => []) (fun _ => 0) "s" rfl).1⟩

theorem cumFrom_length (ps : List ℚ) : ∀ a : ℚ, (cumFrom a ps).length = ps.length := by
  induction ps with
  | nil => intro a; rfl
  | cons p ps ih => intro a; simp [cumFrom, ih]

theorem cum_getD_succ (ps : List ℚ) : ∀ (a : ℚ) (i : ℕ), i < ps.length →
    (a :: cumFrom a ps).getD (i + 1) 0 = (a :: cumFrom a ps).getD i 0 + ps.getD i 0 := by
  induction ps with
  | nil => intro a i hi; cases hi
  | cons p ps ih =>
    intro a i hi
    cases i with
    | zero => simp [cumFrom, List.getD]
    | succ i =>
      have hi' : i < ps.length := by simpa using hi
      have := ih (a + p) i hi'
      simpa [cumFrom, List.getD_cons_succ] using this

theorem cum_getD_last (ps : List ℚ) : ∀ a : ℚ,
    (a :: cumFrom a ps).getD ps.length 0 = a + ps.sum := by
  induction ps with
  | nil => intro a; simp [cumFrom, List.getD]
  | cons p ps ih =>
    intro a
    have := ih (a + p)
    simp only [cumFrom, List.length_cons, List.getD_cons_succ, List.sum_cons]
    rw [this]
    ring

theorem tower_scan_finds (gamma : ℚ) (ps : List ℚ) : ∀ a : ℚ, ps ≠ [] → gamma ≤ a + ps.sum →
    ∃ j, tower_scan gamma (cumFrom a ps) = some j ∧ j < ps.length := by
  induction ps with
  | nil => intro a h _; exact absurd rfl h
  | cons p ps ih =>
    intro a _ hle
    by_cases hc : gamma ≤ a + p
    · exact ⟨0, by simp [cumFrom, tower_scan, hc], by simp⟩
    · have hsum : gamma ≤ (a + p) + ps.sum := by
        simp only [List.sum_cons] at hle
        linarith
      have hps : ps ≠ [] := by
        intro h
        subst h
        simp only [List.sum_nil, add_zero] at hsum
        exact hc hsum
      obtain ⟨j, hj, hjlt⟩ := ih (a + p) hps hsum
      refine ⟨j + 1, ?_, by simp only [List.length_cons]; omega⟩
      simp [cumFrom, tower_scan, hc, hj]

theorem tower_scan_first (gamma : ℚ) (cs : List ℚ) : ∀ j : ℕ, tower_scan gamma cs = some j →
    gamma ≤ cs.getD j 0 ∧ ∀ k, k < j → cs.getD k 0 < gamma := by
  induction cs with
  | nil => intro j h; cases h
  | cons c cs ih =>
    intro j h
    by_cases hc : gamma ≤ c
    · simp [tower_scan, hc] at h
      subst h
      exact ⟨hc, by omega⟩
    · simp [tower_scan, hc] at h
      obtain ⟨j', hj', hjj⟩ := h
      subst hjj
      obtain ⟨h1, h2⟩ := ih j' hj'
      refine ⟨by simpa [List.getD_cons_succ] using h1, ?_⟩
      intro k hk
      cases k with
      | zero => simpa [List.getD] using not_le.mp hc
      | succ k => simpa [List.getD_cons_succ] using h2 k (by omega)

theorem tower_fold_sum (activities : List String) (ps : List ℚ)
    (hlen : ps.length ≤ activities.length) (hne : ps ≠ []) (draws : List ℚ) :
    (∀ g ∈ draws, g ≤ ps.sum) →
    ∀ scores : String → ℕ,
      sumScores activities.dedup (draws.foldl (tower_step activities (cum_prob ps)) scores)
        = sumScores activities.dedup scores + draws.length := by
  induction draws with
  | nil => intro _ scores; simp
  | cons g gs ih =>
    intro hdr scores
    have hg : g ≤ ps.sum := hdr g (List.mem_cons_self g gs)
    obtain ⟨j, hj, hjlt⟩ := tower_scan_finds g ps 0 hne (by simpa using hg)
    have hstep : tower_step activities (cum_prob ps) scores g
        = bump scores (activities.getD j "") := by
      have hpick : tower_pick g (cum_prob ps) = some j := hj
      simp [tower_step, hpick]
    have hmem : activities.getD j "" ∈ activities :=
      getD_mem_self _ _ (lt_of_lt_of_le hjlt hlen)
    have hgs : ∀ x ∈ gs, x ≤ ps.sum := fun x hx => hdr x (List.mem_cons_of_mem _ hx)
    simp only [List.foldl_cons, List.length_cons, hstep]
    rw [ih hgs (bump scores (activities.getD j "")),
      bump_sum _ _ _ (List.nodup_dedup _) (List.mem_dedup.mpr hmem)]
    omega

/-- C2: the tower sampler builds the cumulative sequence with `C[0] = 0` and
`C[i] = C[i-1] + w[i-1]`; each in-range draw is attributed to activity `i-1`
where `i` is the first index with `draw ≤ C[i]`; every draw produces exactly one
hit, so the returned scores sum to the iteration count. -/
theorem tower_sample_spec (draws : List ℚ) (activities : List String)
    (probabilities : List ℚ)
    (hnn : ∀ p ∈ probabilities, 0 ≤ p) (hsum : 0 < probabilities.sum)
    (hlen : probabilities.length ≤ activities.length)
    (hdr : ∀ g ∈ draws, 0 ≤ g ∧ g ≤ (cum_prob probabilities).getD probabilities.length 0) :
    (cum_prob probabilities).getD 0 0 = 0 ∧
    (∀ i, i < probabilities.length →
      (cum_prob probabilities).getD (i + 1) 0
        = (cum_prob probabilities).getD i 0 + probabilities.getD i 0) ∧
    (∀ g, 0 ≤ g → g ≤ (cum_prob probabilities).getD probabilities.length 0 →
      ∃ j, tower_pick g (cum_prob probabilities) = some j ∧ j < probabilities.length ∧
        g ≤ (cum_prob probabilities).getD (j + 1) 0 ∧
        ∀ k, k < j → (cum_prob probabilities).getD (k + 1) 0 < g) ∧
    sumScores activities.dedup (tower_sample draws activities probabilities)
      = draws.length := by
  have hne : probabilities ≠ [] := by
    intro h
    rw [h] at hsum
    simp at hsum
  have hlast : (cum_prob probabilities).getD probabilities.length 0 = probabilities.sum := by
    have := cum_getD_last probabilities 0
    simpa [cum_prob] using this
  refine ⟨rfl, ?_, ?_, ?_⟩
  · intro i hi
    have := cum_getD_succ probabilities 0 i hi
    simpa [cum_prob] using this
  · intro g hg0 hgle
    rw [hlast] at hgle
    obtain ⟨j, hj, hjlt⟩ := tower_scan_finds g probabilities 0 hne (by simpa using hgle)
    obtain ⟨h1, h2⟩ := tower_scan_first g (cumFrom 0 probabilities) j hj
    refine ⟨j, hj, hjlt, ?_, ?_⟩
    · simpa [cum_prob, List.getD_cons_succ] using h1
    · intro k hk
      have := h2 k hk
      simpa [cum_prob, List.getD_cons_succ] using this
  · have hdr' : ∀ g ∈ draws, g ≤ probabilities.sum := by
      intro g hg
      have := (hdr g hg).2
      rwa [hlast] at this
    have h := tower_fold_sum activities probabilities hlen hne draws hdr' (fun _ => 0)
    unfold tower_sample
    rw [h, sumScores_zero]
    omega

theorem tower_sample_spec_witness :
    (0 : ℚ) < ([1] : List ℚ).sum ∧
    sumScores (["a"] : List String).dedup (tower_sample [(1 : ℚ)/2] ["a"] [1]) = 1 := by
  refine ⟨by norm_num, (tower_sample_spec [(1 : ℚ)/2] ["a"] [1]
    (by norm_num) (by norm_num) (by norm_num) ?_).2.2.2⟩
  intro g hg
  simp at hg
  subst hg
  constructor
  · norm_num
  · norm_num [cum_prob, cumFrom, List.getD]

/-- C6 counterexample: the draw `Υ = 0` lies in `[0, 1)` and produces the sample
`arccos(1) = 0`, which touches the endpoint `0` of `[0, π]`, so the samples do not
all lie strictly inside the interval. -/
theorem cont_tower_sample_boundary_counterexample :
    cont_tower_sample [(0 : ℝ)] = [0] ∧ ¬ (0 < (0 : ℝ) ∧ (0 : ℝ) < Real.pi) := by
  constructor
  · simp [cont_tower_sample, Real.arccos_one]
  · intro h
    exact lt_irrefl 0 h.1

/-- C6 (amended): every sample returned by the continuum tower sampler equals
`arccos(1 - 2Υ)` for a uniform draw `Υ ∈ [0, 1)`, and every sample lies in
`[0, π)`: nonnegative and strictly below `π`, but the left endpoint `0` is
attained (at `Υ = 0`). -/
theorem cont_tower_sample_range (upsilons : List ℝ)
    (h : ∀ u ∈ upsilons, 0 ≤ u ∧ u < 1) :
    ∀ x ∈ cont_tower_sample upsilons,
      (∃ u ∈ upsilons, x = Real.arccos (1 - 2 * u)) ∧ 0 ≤ x ∧ x < Real.pi := by
  intro x hx
  obtain ⟨u, hu, rfl⟩ := List.mem_map.mp hx
  refine ⟨⟨u, hu, rfl⟩, Real.arccos_nonneg _, ?_⟩
  have h1 : -1 < 1 - 2 * u := by
    have := (h u hu).2
    linarith
  have h2 : Real.arccos (1 - 2 * u) ≤ Real.pi := Real.arccos_le_pi _
  rcases lt_or_eq_of_le h2 with hlt | heq
  · exact hlt
  · exfalso
    have := Real.arccos_eq_pi.mp heq
    linarith

theorem cont_tower_sample_range_witness :
    ((0 : ℝ) ≤ 1/2 ∧ (1 : ℝ)/2 < 1) ∧
    (∀ x ∈ cont_tower_sample [(1 : ℝ)/2],
      (∃ u ∈ [(1 : ℝ)/2], x = Real.arccos (1 - 2 * u)) ∧ 0 ≤ x ∧ x < Real.pi) := by
  refine ⟨⟨by norm_num, by norm_num⟩, cont_tower_sample_range [(1 : ℝ)/2] ?_⟩
  intro u hu
  simp at hu
  subst hu
  norm_num

theorem reshape_length (rowLen : ℕ) : ∀ (rows : ℕ) (l : List String),
    (reshape rowLen rows l).length = rows := by
  intro rows
  induction rows with
  | zero => intro l; rfl
  | succ n ih => intro l; simp [reshape, ih]

theorem reshape_row_length (rowLen : ℕ) : ∀ (rows : ℕ) (l : List String),
    rowLen * rows ≤ l.length → ∀ row ∈ reshape rowLen rows l, row.length = rowLen := by
  intro rows
  induction rows with
  | zero => intro l _ row hrow; cases hrow
  | succ n ih =>
    intro l hle row hrow
    have hx : rowLen * (n + 1) = rowLen * n + rowLen := by ring
    simp only [reshape, List.mem_cons] at hrow
    rcases hrow with h | h
    · subst h
      rw [List.length_take]
      omega
    · refine ih (l.drop rowLen) ?_ row h
      rw [List.length_drop]
      omega

theorem reshape_flatten (rowLen : ℕ) : ∀ (rows : ℕ) (l : List String),
    l.length = rowLen * rows → (reshape rowLen rows l).flatten = l := by
  intro rows
  induction rows with
  | zero =>
    intro l h
    simp only [Nat.mul_zero] at h
    rw [List.length_eq_zero] at h
    subst h
    rfl
  | succ n ih =>
    intro l h
    have hx : rowLen * (n + 1) = rowLen * n + rowLen := by ring
    simp only [reshape, List.flatten_cons]
    rw [ih (l.drop rowLen) (by rw [List.length_drop]; omega)]
    exact List.take_append_drop rowLen l

theorem ascii_uppercase_nodup : ascii_uppercase.Nodup := by decide

/-- C10: `create_system(n)` builds its grid from the 26 uppercase letters, so it
returns an n×n grid of distinct labels iff `n*n ≤ 26` (equivalently `n ≤ 5`);
for larger `n` numpy's reshape of fewer than `n*n` letters raises (modelled as
`none`) rather than returning a grid. -/
theorem create_system_spec (n : ℕ) :
    (create_system n = none ↔ 26 < n * n) ∧
    (∀ g, create_system n = some g →
      g.length = n ∧ (∀ row ∈ g, row.length = n) ∧ g.flatten.Nodup) ∧
    (n * n ≤ 26 ↔ n ≤ 5) := by
  have hlen : (ascii_uppercase.take (n * n)).length = min (n * n) 26 := by
    rw [List.length_take]
    rfl
  refine ⟨?_, ?_, ?_⟩
  · constructor
    · intro hnone
      unfold create_system at hnone
      by_cases h : (ascii_uppercase.take (n * n)).length = n * n
      · rw [if_pos h] at hnone; cases hnone
      · rw [hlen] at h; omega
    · intro hgt
      have h : ¬ (ascii_uppercase.take (n * n)).length = n * n := by
        rw [hlen]; omega
      unfold create_system
      rw [if_neg h]
  · intro g hg
    unfold create_system at hg
    by_cases h : (ascii_uppercase.take (n * n)).length = n * n
    · rw [if_pos h] at hg
      injection hg with hg
      subst hg
      refine ⟨reshape_length n n _, reshape_row_length n n _ (le_of_eq h.symm), ?_⟩
      rw [reshape_flatten n n _ h]
      exact List.Nodup.sublist (List.take_sublist _ _) ascii_uppercase_nodup
    · rw [if_neg h] at hg; cases hg
  · constructor
    · intro hle
      by_contra hn
      push_neg at hn
      have h6 : 6 ≤ n := hn
      have : 6 * 6 ≤ n * n := Nat.mul_le_mul h6 h6
      omega
    · intro h5
      have : n * n ≤ 5 * 5 := Nat.mul_le_mul h5 h5
      omega

theorem create_system_spec_witness :
    create_system 2 = some [["A", "B"], ["C", "D"]] ∧
    ([["A", "B"], ["C", "D"]] : List (List String)).flatten.Nodup ∧
    (2 * 2 ≤ 26 ↔ 2 ≤ 5) := by
  have hsome : create_system 2 = some [["A", "B"], ["C", "D"]] := by decide
  exact ⟨hsome, ((create_system_spec 2).2.1 _ hsome).2.2, (create_system_spec 2).2.2⟩

theorem foldUpd_not_mem (l : List (String × α)) : ∀ (t : String → α) (k : String),
    k ∉ l.map Prod.fst →
    l.foldl (fun t kv => updD t kv.1 kv.2) t k = t k := by
  induction l with
  | nil => intro t k _; rfl
  | cons kv l ih =>
    intro t k hk
    simp only [List.map_cons, List.mem_cons] at hk
    push_neg at hk
    simp only [List.foldl_cons]
    rw [ih _ k hk.2]
    simp [updD, hk.1]

theorem foldUpd_mem (l : List (String × α)) : ∀ (t : String → α) (k : String) (v : α),
    (k, v) ∈ l → (l.map Prod.fst).Nodup →
    l.foldl (fun t kv => updD t kv.1 kv.2) t k = v := by
  induction l with
  | nil => intro t k v hm _; cases hm
  | cons kv l ih =>
    intro t k v hm hnd
    simp only [List.map_cons, List.nodup_cons] at hnd
    simp only [List.foldl_cons]
    rcases List.mem_cons.mp hm with h | h
    · have hk : k ∉ l.map Prod.fst := by
        rw [← h] at hnd
        exact hnd.1
      rw [foldUpd_not_mem l _ k hk, ← h]
      simp [updD]
    · exact ih _ k v h hnd.2

theorem range_map_getD {β : Type} (l : List β) (d : β) :
    (List.range l.length).map (fun j => l.getD j d) = l := by
  induction l with
  | nil => rfl
  | cons x xs ih =>
    rw [List.length_cons, List.range_succ_eq_map]
    simp only [List.map_cons, List.map_map]
    congr 1

theorem grid_enum_flatten (system : List (List String))
    (hrows : ∀ row ∈ system, row.length = system.length) :
    (List.range system.length).flatMap
        (fun i => (List.range system.length).map (fun j => grid_get system i j))
      = system.flatten := by
  have h1 : ∀ i, i < system.length →
      (List.range system.length).map (fun j => grid_get system i j)
        = system.getD i [] := by
    intro i hi
    have hrow : system.getD i [] ∈ system := by
      rw [List.getD_eq_getElem _ _ hi]
      exact List.getElem_mem hi
    have hlen : (system.getD i []).length = system.length := hrows _ hrow
    have hr := range_map_getD (system.getD i []) ""
    rw [hlen] at hr
    exact hr
  rw [List.flatMap_def]
  have h2 : (List.range system.length).map
      (fun i => (List.range system.length).map (fun j => grid_get system i j))
      = (List.range system.length).map (fun i => system.getD i []) := by
    apply List.map_congr_left
    intro i hi
    exact h1 i (List.mem_range.mp hi)
  rw [h2]
  have h3 := range_map_getD system []
  rw [h3]

theorem table_entries_keys (system : List (List String))
    (hrows : ∀ row ∈ system, row.length = system.length) :
    (table_entries system).map Prod.fst = system.flatten := by
  unfold table_entries
  rw [List.map_flatMap]
  have hmm : ∀ i, ((List.range system.length).map
      (fun j => (grid_get system i j, neighbors_of system i j))).map Prod.fst
      = (List.range system.length).map (fun j => grid_get system i j) := by
    intro i
    rw [List.map_map]
    rfl
  simp only [hmm]
  exact grid_enum_flatten system hrows

theorem table_entries_mem (system : List (List String)) (i j : ℕ)
    (hi : i < system.length) (hj : j < system.length) :
    (grid_get system i j, neighbors_of system i j) ∈ table_entries system := by
  unfold table_entries
  rw [List.mem_flatMap]
  exact ⟨i, List.mem_range.mpr hi, List.mem_map.mpr ⟨j, List.mem_range.mpr hj, rfl⟩⟩

/-- C3: for an N×N grid of distinct labels, the neighbor table maps each label to
the ordered 4-tuple of neighbor labels in the fixed direction order up, right,
down, left; an interior direction gives the geometrically adjacent label and an
out-of-bounds direction gives the cell's own label (self-loop). -/
theorem neighborhood_table_spec (system : List (List String)) (n i j : ℕ)
    (hn : system.length = n) (hrows : ∀ row ∈ system, row.length = n)
    (hnd : system.flatten.Nodup) (hi : i < n) (hj : j < n) :
    get_neighborhood_table system (grid_get system i j) = neighbors_of system i j ∧
    (neighbors_of system i j).length = 4 ∧
    (0 < i → (neighbors_of system i j).getD 0 "" = grid_get system (i - 1) j) ∧
    (i = 0 → (neighbors_of system i j).getD 0 "" = grid_get system i j) ∧
    (j + 1 < n → (neighbors_of system i j).getD 1 "" = grid_get system i (j + 1)) ∧
    (j + 1 = n → (neighbors_of system i j).getD 1 "" = grid_get system i j) ∧
    (i + 1 < n → (neighbors_of system i j).getD 2 "" = grid_get system (i + 1) j) ∧
    (i + 1 = n → (neighbors_of system i j).getD 2 "" = grid_get system i j) ∧
    (0 < j → (neighbors_of system i j).getD 3 "" = grid_get system i (j - 1)) ∧
    (j = 0 → (neighbors_of system i j).getD 3 "" = grid_get system i j) := by
  subst hn
  refine ⟨?_, rfl, ?_, ?_, ?_, ?_, ?_, ?_, ?_, ?_⟩
  · unfold get_neighborhood_table dictOf
    apply foldUpd_mem
    · exact table_entries_mem system i j hi hj
    · rw [table_entries_keys system hrows]
      exact hnd
  · intro h0
    simp [neighbors_of, List.getD, h0]
  · intro h0
    subst h0
    simp [neighbors_of, List.getD]
  · intro h0
    have hc : j < system.length - 1 := by omega
    simp [neighbors_of, List.getD, hc]
  · intro h0
    have hc : ¬ j < system.length - 1 := by omega
    simp [neighbors_of, List.getD, hc]
  · intro h0
    have hc : i < system.length - 1 := by omega
    simp [neighbors_of, List.getD, hc]
  · intro h0
    have hc : ¬ i < system.length - 1 := by omega
    simp [neighbors_of, List.getD, hc]
  · intro h0
    simp [neighbors_of, List.getD, h0]
  · intro h0
    subst h0
    simp [neighbors_of, List.getD]

theorem neighborhood_table_spec_witness :
    ([["A", "B"], ["C", "D"]] : List (List String)).flatten.Nodup ∧
    get_neighborhood_table [["A", "B"], ["C", "D"]]
        (grid_get [["A", "B"], ["C", "D"]] 0 0)
      = neighbors_of [["A", "B"], ["C", "D"]] 0 0 := by
  refine ⟨by decide, (neighborhood_table_spec [["A", "B"], ["C", "D"]] 2 0 0 rfl
    ?_ (by decide) (by decide) (by decide)).1⟩
  intro row hrow
  fin_cases hrow <;> rfl
